import Mathlib

/-!
Verification of the numeric core of the ssp_visualization repository.

The repository's computational surface is `src/python/utils.py`:
a hand-written FFT (`custom_fft`: recursive radix-2 Cooley-Tukey for
power-of-two lengths, direct DFT otherwise), its inverse via the
conjugate-and-rescale identity (`custom_ifft`), the unitary-vector
constructor `make_good_unitary`, and the Fourier-domain fractional
power `power_ssp`.  The module sets `USE_CUSTOM_FFT = True`, so `fft`
and `ifft` are the custom routines.

Vectors of length `N` are embedded as total functions `ℕ → ℂ` (or
`ℕ → ℝ`) together with the explicit length `N`; all operations only
read indices `< N`, mirroring numpy arrays.  Floating-point arithmetic
is idealized as exact real/complex arithmetic, so "≈ up to tolerance"
claims become exact statements.
-/

open Complex Finset
open scoped Real BigOperators

namespace SSPViz

/-- Reference discrete Fourier transform of a length-`N` vector:
the matrix `exp (-2πi·k·n/N)` applied to `x`, exactly the direct-DFT
branch of `custom_fft` in `src/python/utils.py`. -/
noncomputable def dft (N : ℕ) (x : ℕ → ℂ) : ℕ → ℂ := fun k =>
  ∑ n ∈ range N, exp (-2 * (π : ℂ) * I * k * n / N) * x n

/-- Reference inverse discrete Fourier transform:
`(1/N) · Σ exp (2πi·k·n/N) · x n`. -/
noncomputable def idft (N : ℕ) (x : ℕ → ℂ) : ℕ → ℂ := fun k =>
  (∑ n ∈ range N, exp (2 * (π : ℂ) * I * k * n / N) * x n) / N

/-- `custom_fft` from `src/python/utils.py`: for `N ≤ 1` the input is
returned unchanged; when `N & (N-1) ≠ 0` (not a power of two) the direct
DFT is computed; otherwise the radix-2 Cooley-Tukey recursion splits the
input into even- and odd-indexed halves and recombines them with the
twiddle factors `exp (-2πi·k/N)`. -/
noncomputable def custom_fft (N : ℕ) (x : ℕ → ℂ) : ℕ → ℂ :=
  if _h1 : N ≤ 1 then x
  else if _h2 : N &&& (N - 1) ≠ 0 then fun k =>
    ∑ n ∈ range N, exp (-2 * (π : ℂ) * I * k * n / N) * x n
  else fun k =>
    if k < N / 2 then
      custom_fft (N / 2) (fun m => x (2 * m)) k +
        exp (-2 * (π : ℂ) * I * k / N) * custom_fft (N / 2) (fun m => x (2 * m + 1)) k
    else
      custom_fft (N / 2) (fun m => x (2 * m)) (k - N / 2) -
        exp (-2 * (π : ℂ) * I * ((k - N / 2 : ℕ) : ℂ) / N) *
          custom_fft (N / 2) (fun m => x (2 * m + 1)) (k - N / 2)
termination_by N
decreasing_by all_goals omega

/-- `custom_conj` from `src/python/utils.py`: real part unchanged,
imaginary part negated. -/
noncomputable def custom_conj (x : ℕ → ℂ) : ℕ → ℂ := fun n =>
  ((x n).re : ℂ) - ((x n).im : ℂ) * I

/-- `custom_ifft` from `src/python/utils.py`:
`IFFT(x) = conj(FFT(conj(x))) / N`. -/
noncomputable def custom_ifft (N : ℕ) (x : ℕ → ℂ) : ℕ → ℂ := fun k =>
  custom_conj (custom_fft N (custom_conj x)) k / N

/-- Module-level transform-backend selector from `src/python/utils.py`. -/
def USE_CUSTOM_FFT : Bool := true

/-- The module binds `fft = custom_fft` (since `USE_CUSTOM_FFT = True`). -/
noncomputable def fft (N : ℕ) (x : ℕ → ℂ) : ℕ → ℂ := custom_fft N x

/-- The module binds `ifft = custom_ifft` (since `USE_CUSTOM_FFT = True`). -/
noncomputable def ifft (N : ℕ) (x : ℕ → ℂ) : ℕ → ℂ := custom_ifft N x

/-- `power_ssp` from `src/python/utils.py`: transform the (real) SSP to
the frequency domain, raise each coefficient to the complex power
`exponent`, inverse-transform and keep the real part. -/
noncomputable def power_ssp (D : ℕ) (ssp : ℕ → ℝ) (exponent : ℝ) : ℕ → ℝ := fun n =>
  (ifft D (fun k => fft D (fun j => ((ssp j : ℂ))) k ^ (exponent : ℂ)) n).re

/-- The sampled phases of `make_good_unitary`:
`phi = sign * π * (eps + a * (1 - 2*eps))`.  The arrays `a` (drawn by
`rng.rand`, so entries lie in `[0,1)`) and `sign` (entries `±1`) are
modelled as total functions; only indices `< (D-1)/2` are used. -/
noncomputable def mgu_phi (eps : ℝ) (a sign : ℕ → ℝ) : ℕ → ℝ := fun i =>
  sign i * π * (eps + a i * (1 - 2 * eps))

/-- First assertion of `make_good_unitary`: `np.all(np.abs(phi) >= np.pi * eps)`. -/
def mgu_assert1 (D : ℕ) (eps : ℝ) (a sign : ℕ → ℝ) : Prop :=
  ∀ i < (D - 1) / 2, π * eps ≤ |mgu_phi eps a sign i|

/-- Second assertion of `make_good_unitary`: `np.all(np.abs(phi) <= np.pi * (1 - eps))`. -/
def mgu_assert2 (D : ℕ) (eps : ℝ) (a sign : ℕ → ℝ) : Prop :=
  ∀ i < (D - 1) / 2, |mgu_phi eps a sign i| ≤ π * (1 - eps)

/-- The frequency-domain vector `fv` built by `make_good_unitary`:
bin `0` is `1`; bins `1 ≤ k < (D+1)/2` hold the unit phasors
`cos phi + i sin phi`; for even `D` bin `D/2` is `1`; the remaining bins
(`D/2 < k < D`) mirror the phasor bins by conjugation
(`fv[-1:D//2:-1] = conj (fv[1:(D+1)//2])`, so bin `k` holds the
conjugate of bin `D - k`). -/
noncomputable def mgu_fv (D : ℕ) (phi : ℕ → ℝ) : ℕ → ℂ := fun k =>
  if k = 0 then 1
  else if k < (D + 1) / 2 then ⟨Real.cos (phi (k - 1)), Real.sin (phi (k - 1))⟩
  else if D % 2 = 0 ∧ k = D / 2 then 1
  else ⟨Real.cos (phi (D - k - 1)), -Real.sin (phi (D - k - 1))⟩

/-- `make_good_unitary` from `src/python/utils.py`: the real part of the
inverse transform of the constructed unit-magnitude spectrum
(`v = ifft(fv); v = v.real`). -/
noncomputable def make_good_unitary (D : ℕ) (eps : ℝ) (a sign : ℕ → ℝ) : ℕ → ℝ := fun n =>
  (ifft D (mgu_fv D (mgu_phi eps a sign)) n).re

/-- The phase of bin `k` of `mgu_fv`: `fv k = exp (mgu_theta k * I)`. -/
noncomputable def mgu_theta (D : ℕ) (phi : ℕ → ℝ) : ℕ → ℝ := fun k =>
  if k = 0 then 0
  else if k < (D + 1) / 2 then phi (k - 1)
  else if D % 2 = 0 ∧ k = D / 2 then 0
  else -phi (D - k - 1)

/-- Modelled from the spec (section 4.2): the standard complex-power
definition `magnitude^exponent * e^(i*exponent*phase)` used to state
the contract of `power_ssp`. -/
noncomputable def spec_cpow (z : ℂ) (e : ℝ) : ℂ :=
  ((Complex.abs z ^ e : ℝ) : ℂ) * exp ((e : ℂ) * Complex.arg z * I)

/-- Modelled from the spec (section 4.2): the contract of `power_ssp`,
written with the reference DFT, the magnitude/phase complex power and
the reference inverse DFT. -/
noncomputable def spec_power_ssp (D : ℕ) (ssp : ℕ → ℝ) (e : ℝ) : ℕ → ℝ := fun n =>
  (idft D (fun k => spec_cpow (dft D (fun j => ((ssp j : ℂ))) k) e) n).re

/-- Modelled from the spec (section 8): circular (self-)convolution of
two length-`D` real vectors, `(v ⊛ w) n = Σ_m v m * w ((n - m) mod D)`. -/
def circConv (D : ℕ) (v w : ℕ → ℝ) : ℕ → ℝ := fun n =>
  ∑ m ∈ range D, v m * w ((D + n - m) % D)

/-- Conjugate symmetry of a length-`D` spectrum: bin `-k` (that is,
`(D - k) % D`) is the conjugate of bin `k`. -/
def ConjSymm (D : ℕ) (F : ℕ → ℂ) : Prop :=
  ∀ k < D, F ((D - k) % D) = (starRingEnd ℂ) (F k)

/-- A valid SSP vector of length `D`: a real vector whose DFT has unit
magnitude at every frequency bin. -/
def IsSSP (D : ℕ) (v : ℕ → ℝ) : Prop :=
  ∀ k < D, Complex.abs (dft D (fun j => ((v j : ℂ))) k) = 1

/-- Concrete SSP for the counterexample to the unrestricted power
composition law: `make_good_unitary` at `D = 3`, `eps = 0`, with sampled
values `a 0 = 3/4` (giving spectral phase `3π/4`) and `sign 0 = 1`. -/
noncomputable def vC1 : ℕ → ℝ := make_good_unitary 3 0 (fun _ => 3 / 4) (fun _ => 1)

/-! ### Core lemmas: roots of unity, orthogonality, inversion -/

lemma two_pi_I_ne_zero : (2 : ℂ) * (π : ℂ) * I ≠ 0 := by
  simp [Real.pi_ne_zero, I_ne_zero]

lemma exp_int_two_pi (m : ℤ) : exp (2 * (π : ℂ) * I * m) = 1 := by
  rw [show (2 * (π : ℂ) * I * m) = (m : ℂ) * (2 * π * I) by ring]
  exact Complex.exp_int_mul_two_pi_mul_I m

lemma exp_nat_two_pi (m : ℕ) : exp (2 * (π : ℂ) * I * m) = 1 := by
  have h := exp_int_two_pi (m : ℤ)
  push_cast at h
  exact h

/-- Orthogonality of the `D`-th roots of unity:
`Σ_{n<D} exp (2πi·n·t/D)` is `D` when `D ∣ t` and `0` otherwise. -/
lemma orth_int (D : ℕ) (hD : 0 < D) (t : ℤ) :
    ∑ n ∈ range D, exp (2 * (π : ℂ) * I * n * t / D) =
      if (D : ℤ) ∣ t then (D : ℂ) else 0 := by
  have hDC : (D : ℂ) ≠ 0 := Nat.cast_ne_zero.mpr hD.ne'
  by_cases hdvd : (D : ℤ) ∣ t
  · obtain ⟨c, rfl⟩ := hdvd
    rw [if_pos ⟨c, rfl⟩]
    have hterm : ∀ n ∈ range D,
        exp (2 * (π : ℂ) * I * n * (((D : ℤ) * c : ℤ) : ℂ) / D) = 1 := by
      intro n _
      have harg : 2 * (π : ℂ) * I * n * (((D : ℤ) * c : ℤ) : ℂ) / D =
          2 * (π : ℂ) * I * ((n * c : ℤ) : ℂ) := by
        push_cast
        field_simp
        ring
      rw [harg, exp_int_two_pi]
    rw [Finset.sum_congr rfl hterm]
    simp
  · rw [if_neg hdvd]
    set r : ℂ := exp (2 * (π : ℂ) * I * t / D) with hr
    have hterm : ∀ n : ℕ, exp (2 * (π : ℂ) * I * n * t / D) = r ^ n := by
      intro n
      rw [hr, ← Complex.exp_nat_mul]
      congr 1
      ring
    have hrD : r ^ D = 1 := by
      rw [hr, ← Complex.exp_nat_mul]
      have harg : (D : ℂ) * (2 * (π : ℂ) * I * t / D) = 2 * (π : ℂ) * I * t := by
        field_simp
      rw [harg]
      exact exp_int_two_pi t
    have hr1 : r ≠ 1 := by
      intro h
      rw [hr, Complex.exp_eq_one_iff] at h
      obtain ⟨m, hm⟩ := h
      apply hdvd
      refine ⟨m, ?_⟩
      have h3 := hm
      field_simp at h3
      have h4 : 2 * (π : ℂ) * I * (t : ℂ) = 2 * (π : ℂ) * I * ((m : ℂ) * (D : ℂ)) := by
        linear_combination h3
      have h5 : (t : ℂ) = ((D * m : ℤ) : ℂ) := by
        have := mul_left_cancel₀ two_pi_I_ne_zero h4
        push_cast
        linear_combination this
      exact_mod_cast h5
    rw [Finset.sum_congr rfl (fun n _ => hterm n), geom_sum_eq hr1, hrD]
    simp

/-- Fourier inversion, one direction: `idft ∘ dft = id` on indices `< D`. -/
lemma idft_dft (D : ℕ) (x : ℕ → ℂ) {j : ℕ} (hj : j < D) :
    idft D (dft D x) j = x j := by
  have hD : 0 < D := lt_of_le_of_lt (Nat.zero_le j) hj
  have hDC : (D : ℂ) ≠ 0 := Nat.cast_ne_zero.mpr hD.ne'
  unfold idft dft
  have step1 : ∀ k ∈ range D,
      exp (2 * (π : ℂ) * I * j * k / D) *
          ∑ n ∈ range D, exp (-2 * (π : ℂ) * I * k * n / D) * x n =
        ∑ n ∈ range D, exp (2 * (π : ℂ) * I * k * (((j : ℤ) - n : ℤ) : ℂ) / D) * x n := by
    intro k _
    rw [Finset.mul_sum]
    refine Finset.sum_congr rfl fun n _ => ?_
    rw [← mul_assoc, ← Complex.exp_add]
    congr 2
    push_cast
    ring
  rw [Finset.sum_congr rfl step1, Finset.sum_comm]
  have step2 : ∀ n ∈ range D,
      ∑ k ∈ range D, exp (2 * (π : ℂ) * I * k * (((j : ℤ) - n : ℤ) : ℂ) / D) * x n =
        (if (D : ℤ) ∣ ((j : ℤ) - n) then (D : ℂ) else 0) * x n := by
    intro n _
    rw [← Finset.sum_mul, orth_int D hD ((j : ℤ) - n)]
  rw [Finset.sum_congr rfl step2]
  rw [Finset.sum_eq_single j]
  · rw [if_pos (by simp)]
    field_simp
  · intro n hn hne
    rw [if_neg, zero_mul]
    intro hdv
    have habs : |(j : ℤ) - n| < (D : ℤ) := by
      rw [abs_lt]
      have := mem_range.mp hn
      omega
    have := Int.eq_zero_of_abs_lt_dvd hdv habs
    omega
  · intro h
    exact absurd (mem_range.mpr hj) h

/-- Fourier inversion, the other direction: `dft ∘ idft = id` on indices `< D`. -/
lemma dft_idft (D : ℕ) (F : ℕ → ℂ) {k : ℕ} (hk : k < D) :
    dft D (idft D F) k = F k := by
  have hD : 0 < D := lt_of_le_of_lt (Nat.zero_le k) hk
  have hDC : (D : ℂ) ≠ 0 := Nat.cast_ne_zero.mpr hD.ne'
  unfold dft idft
  have step1 : ∀ n ∈ range D,
      exp (-2 * (π : ℂ) * I * k * n / D) *
          ((∑ l ∈ range D, exp (2 * (π : ℂ) * I * n * l / D) * F l) / D) =
        (∑ l ∈ range D, exp (2 * (π : ℂ) * I * n * (((l : ℤ) - k : ℤ) : ℂ) / D) * F l) / D := by
    intro n _
    rw [mul_div_assoc', Finset.mul_sum]
    congr 1
    refine Finset.sum_congr rfl fun l _ => ?_
    rw [← mul_assoc, ← Complex.exp_add]
    congr 2
    push_cast
    ring
  rw [Finset.sum_congr rfl step1, ← Finset.sum_div, Finset.sum_comm]
  have step2 : ∀ l ∈ range D,
      ∑ n ∈ range D, exp (2 * (π : ℂ) * I * n * (((l : ℤ) - k : ℤ) : ℂ) / D) * F l =
        (if (D : ℤ) ∣ ((l : ℤ) - k) then (D : ℂ) else 0) * F l := by
    intro l _
    rw [← Finset.sum_mul, orth_int D hD ((l : ℤ) - k)]
  rw [Finset.sum_congr rfl step2]
  rw [Finset.sum_eq_single k]
  · rw [if_pos (by simp)]
    field_simp
  · intro l hl hne
    rw [if_neg, zero_mul]
    intro hdv
    have habs : |(l : ℤ) - k| < (D : ℤ) := by
      rw [abs_lt]
      have := mem_range.mp hl
      omega
    have := Int.eq_zero_of_abs_lt_dvd hdv habs
    omega
  · intro h
    exact absurd (mem_range.mpr hk) h

/-- `dft` only reads its input at indices `< N`. -/
lemma dft_congr {N : ℕ} {x y : ℕ → ℂ} (h : ∀ n < N, x n = y n) (k : ℕ) :
    dft N x k = dft N y k :=
  Finset.sum_congr rfl fun n hn => by rw [h n (mem_range.mp hn)]

/-- `idft` only reads its input at indices `< N`. -/
lemma idft_congr {N : ℕ} {x y : ℕ → ℂ} (h : ∀ n < N, x n = y n) (k : ℕ) :
    idft N x k = idft N y k := by
  unfold idft
  congr 1
  exact Finset.sum_congr rfl fun n hn => by rw [h n (mem_range.mp hn)]

lemma mirror_lt (D m : ℕ) (hD : 0 < D) : (D - m) % D < D := Nat.mod_lt _ hD

lemma mirror_mirror (D m : ℕ) (hm : m < D) : (D - (D - m) % D) % D = m := by
  rcases Nat.eq_zero_or_pos m with rfl | hm0
  · simp [Nat.mod_self]
  · have h1 : (D - m) % D = D - m := Nat.mod_eq_of_lt (by omega)
    rw [h1]
    have h2 : D - (D - m) = m := by omega
    rw [h2, Nat.mod_eq_of_lt hm]

/-- Index mirroring under the exponential: if `exp (D·c) = 1` then the
exponential at the mirrored index `(D - m) % D` is the exponential at `-m`. -/
lemma exp_mirror (D m : ℕ) (hm : m < D) {c : ℂ} (hc : exp ((D : ℂ) * c) = 1) :
    exp ((((D - m) % D : ℕ) : ℂ) * c) = exp (-(m : ℂ) * c) := by
  rcases Nat.eq_zero_or_pos m with rfl | hm0
  · simp [Nat.mod_self]
  · have h1 : (D - m) % D = D - m := Nat.mod_eq_of_lt (by omega)
    rw [h1, Nat.cast_sub hm.le, sub_mul, Complex.exp_sub, hc, neg_mul, Complex.exp_neg,
      one_div]

/-- The inverse transform of a conjugate-symmetric spectrum is real. -/
lemma idft_im_of_conjSymm {D : ℕ} {F : ℕ → ℂ} (h : ConjSymm D F) (n : ℕ) :
    (idft D F n).im = 0 := by
  rcases Nat.eq_zero_or_pos D with rfl | hD
  · simp [idft]
  have hDC : (D : ℂ) ≠ 0 := Nat.cast_ne_zero.mpr hD.ne'
  have hc : exp ((D : ℂ) * (2 * (π : ℂ) * I * n / D)) = 1 := by
    rw [show (D : ℂ) * (2 * (π : ℂ) * I * n / D) = 2 * (π : ℂ) * I * n by field_simp]
    exact exp_nat_two_pi n
  have key : (starRingEnd ℂ) (idft D F n) = idft D F n := by
    unfold idft
    rw [map_div₀, map_sum]
    have hD2 : (starRingEnd ℂ) ((D : ℕ) : ℂ) = ((D : ℕ) : ℂ) := by
      simp
    rw [hD2]
    congr 1
    refine Finset.sum_nbij' (fun m => (D - m) % D) (fun m => (D - m) % D)
      (fun m _ => mem_range.mpr (mirror_lt D m hD))
      (fun m _ => mem_range.mpr (mirror_lt D m hD))
      (fun m hm => mirror_mirror D m (mem_range.mp hm))
      (fun m hm => mirror_mirror D m (mem_range.mp hm))
      (fun m hm => ?_)
    rw [map_mul, h m (mem_range.mp hm)]
    congr 1
    have h1 : exp (2 * (π : ℂ) * I * n * (((D - m) % D : ℕ) : ℂ) / D) =
        exp ((((D - m) % D : ℕ) : ℂ) * (2 * (π : ℂ) * I * n / D)) := by
      congr 1
      ring
    rw [h1, exp_mirror D m (mem_range.mp hm) hc, ← Complex.exp_conj]
    congr 1
    simp only [map_mul, map_div₀, map_ofNat, Complex.conj_I, Complex.conj_ofReal,
      map_natCast]
    ring
  have := congrArg Complex.im key
  simp only [Complex.conj_im] at this
  linarith

/-- The DFT of a real vector is conjugate-symmetric. -/
lemma dft_conjSymm_of_real (D : ℕ) (v : ℕ → ℝ) :
    ConjSymm D (dft D (fun j => ((v j : ℂ)))) := by
  intro k hk
  have hD : 0 < D := lt_of_le_of_lt (Nat.zero_le k) hk
  have hDC : (D : ℂ) ≠ 0 := Nat.cast_ne_zero.mpr hD.ne'
  unfold dft
  rw [map_sum]
  refine Finset.sum_congr rfl fun n hn => ?_
  rw [map_mul, Complex.conj_ofReal]
  congr 1
  have hc : exp ((D : ℂ) * (-2 * (π : ℂ) * I * n / D)) = 1 := by
    rw [show (D : ℂ) * (-2 * (π : ℂ) * I * n / D) = -(2 * (π : ℂ) * I * n) by field_simp; ring]
    rw [Complex.exp_neg, exp_nat_two_pi]
    norm_num
  have h1 : exp (-2 * (π : ℂ) * I * (((D - k) % D : ℕ) : ℂ) * n / D) =
      exp ((((D - k) % D : ℕ) : ℂ) * (-2 * (π : ℂ) * I * n / D)) := by
    congr 1
    ring
  rw [h1, exp_mirror D k hk hc, ← Complex.exp_conj]
  congr 1
  simp only [map_mul, map_div₀, map_ofNat, Complex.conj_I, Complex.conj_ofReal,
    map_natCast, map_neg]
  ring

/-- Recovering the spectrum: if `F` is conjugate-symmetric then the real
part of its inverse transform is a real vector whose DFT is `F` again. -/
lemma dft_re_idft {D : ℕ} {F : ℕ → ℂ} (h : ConjSymm D F) {k : ℕ} (hk : k < D) :
    dft D (fun j => (((idft D F j).re : ℝ) : ℂ)) k = F k := by
  have h1 : ∀ n < D, (((idft D F n).re : ℝ) : ℂ) = idft D F n := by
    intro n _
    apply Complex.ext
    · simp
    · simp [idft_im_of_conjSymm h n]
  rw [dft_congr h1 k]
  exact dft_idft D F hk

/-- Conjugating an inverse transform conjugates the spectrum and flips
the sign in the exponential. -/
lemma conj_idft (D : ℕ) (F : ℕ → ℂ) (n : ℕ) :
    (starRingEnd ℂ) (idft D F n) =
      (∑ l ∈ range D, exp (-2 * (π : ℂ) * I * n * l / D) * (starRingEnd ℂ) (F l)) / D := by
  unfold idft
  rw [map_div₀, map_sum]
  rw [show (starRingEnd ℂ) ((D : ℕ) : ℂ) = ((D : ℕ) : ℂ) by simp]
  congr 1
  refine Finset.sum_congr rfl fun l _ => ?_
  rw [map_mul]
  congr 1
  rw [← Complex.exp_conj]
  congr 1
  simp only [map_mul, map_div₀, map_ofNat, Complex.conj_I, Complex.conj_ofReal, map_natCast]
  ring

/-- Parseval (complex form): the summed squared magnitude of the inverse
transform is `1/D` times that of the spectrum. -/
lemma sum_mul_conj_idft (D : ℕ) (F : ℕ → ℂ) :
    ∑ n ∈ range D, idft D F n * (starRingEnd ℂ) (idft D F n) =
      (∑ l ∈ range D, F l * (starRingEnd ℂ) (F l)) / D := by
  calc ∑ n ∈ range D, idft D F n * (starRingEnd ℂ) (idft D F n)
      = ∑ n ∈ range D,
          (∑ l ∈ range D, exp (-2 * (π : ℂ) * I * l * n / D) * idft D F n *
            (starRingEnd ℂ) (F l)) / D := by
        refine Finset.sum_congr rfl fun n _ => ?_
        rw [conj_idft D F n, ← mul_div_assoc, Finset.mul_sum]
        congr 1
        refine Finset.sum_congr rfl fun l _ => ?_
        have he : exp (-2 * (π : ℂ) * I * n * l / D) = exp (-2 * (π : ℂ) * I * l * n / D) := by
          congr 1
          ring
        rw [he]
        ring
    _ = (∑ n ∈ range D, ∑ l ∈ range D, exp (-2 * (π : ℂ) * I * l * n / D) * idft D F n *
          (starRingEnd ℂ) (F l)) / D := by
        rw [Finset.sum_div]
    _ = (∑ l ∈ range D, ∑ n ∈ range D, exp (-2 * (π : ℂ) * I * l * n / D) * idft D F n *
          (starRingEnd ℂ) (F l)) / D := by
        rw [Finset.sum_comm]
    _ = (∑ l ∈ range D, F l * (starRingEnd ℂ) (F l)) / D := by
        congr 1
        refine Finset.sum_congr rfl fun l hl => ?_
        rw [← Finset.sum_mul]
        rw [show (∑ n ∈ range D, exp (-2 * (π : ℂ) * I * l * n / D) * idft D F n) =
          dft D (idft D F) l from rfl]
        rw [dft_idft D F (mem_range.mp hl)]

/-- Parseval (real form, via `normSq`). -/
lemma sum_normSq_idft (D : ℕ) (F : ℕ → ℂ) :
    ∑ n ∈ range D, Complex.normSq (idft D F n) =
      (∑ l ∈ range D, Complex.normSq (F l)) / D := by
  have h := sum_mul_conj_idft D F
  simp only [Complex.mul_conj] at h
  have hL : ∑ n ∈ range D, ((Complex.normSq (idft D F n) : ℝ) : ℂ) =
      ((∑ n ∈ range D, Complex.normSq (idft D F n) : ℝ) : ℂ) := by
    push_cast
    rfl
  have hR : (∑ l ∈ range D, ((Complex.normSq (F l) : ℝ) : ℂ)) / ((D : ℕ) : ℂ) =
      (((∑ l ∈ range D, Complex.normSq (F l)) / (D : ℝ) : ℝ) : ℂ) := by
    push_cast
    rfl
  rw [hL, hR] at h
  exact_mod_cast h

/-! ### Correctness of the custom Cooley-Tukey FFT -/

lemma exp_neg_nat_two_pi (m : ℕ) : exp (-(2 * (π : ℂ) * I * m)) = 1 := by
  rw [Complex.exp_neg, exp_nat_two_pi]
  norm_num

lemma exp_neg_pi : exp (-((π : ℂ) * I)) = -1 := by
  rw [Complex.exp_neg, Complex.exp_pi_mul_I]
  norm_num

/-- If the guard `N & (N-1) == 0` of the Cooley-Tukey branch holds for
`N ≥ 2` then `N` is even. -/
lemma land_even {N : ℕ} (h2 : 2 ≤ N) (h : N &&& (N - 1) = 0) : N % 2 = 0 := by
  by_contra hodd
  have hN1 : N % 2 = 1 := by omega
  set m := N / 2 with hm
  have hm1 : 1 ≤ m := by omega
  obtain ⟨i, hi, _⟩ := Nat.exists_most_significant_bit (show m ≠ 0 by omega)
  have hbN : N.testBit (i + 1) = true := by
    rw [Nat.testBit_add_one, ← hm, hi]
  have hbN1 : (N - 1).testBit (i + 1) = true := by
    rw [Nat.testBit_add_one]
    have hdiv : (N - 1) / 2 = m := by omega
    rw [hdiv, hi]
  have hland : (N &&& (N - 1)).testBit (i + 1) = true := by
    rw [Nat.testBit_land, hbN, hbN1]
    rfl
  rw [h, Nat.zero_testBit] at hland
  exact Bool.false_ne_true hland

/-- Splitting a sum over `range (2M)` into even- and odd-indexed parts. -/
lemma sum_range_even_odd (M : ℕ) (f : ℕ → ℂ) :
    ∑ n ∈ range (2 * M), f n =
      ∑ m ∈ range M, f (2 * m) + ∑ m ∈ range M, f (2 * m + 1) := by
  induction M with
  | zero => simp
  | succ M ih =>
    rw [show 2 * (M + 1) = 2 * M + 1 + 1 by ring, Finset.sum_range_succ,
      Finset.sum_range_succ, Finset.sum_range_succ, Finset.sum_range_succ, ih]
    ring

/-- The DFT twiddle factor only depends on the frequency index mod `M`. -/
lemma exp_dft_mod (M : ℕ) (hM : 0 < M) (k m : ℕ) :
    exp (-2 * (π : ℂ) * I * k * m / M) =
      exp (-2 * (π : ℂ) * I * ((k % M : ℕ) : ℂ) * m / M) := by
  have hMC : (M : ℂ) ≠ 0 := Nat.cast_ne_zero.mpr hM.ne'
  have hk : M * (k / M) + k % M = k := Nat.div_add_mod k M
  have harg : -2 * (π : ℂ) * I * k * m / M =
      -(2 * (π : ℂ) * I * ((k / M) * m : ℕ)) + -2 * (π : ℂ) * I * ((k % M : ℕ) : ℂ) * m / M := by
    rw [show (k : ℂ) = ((M * (k / M) + k % M : ℕ) : ℂ) by rw [hk]]
    push_cast
    field_simp
    ring
  rw [harg, Complex.exp_add, exp_neg_nat_two_pi, one_mul]

/-- Radix-2 split of the reference DFT: the length-`2M` DFT decomposes
into the even- and odd-index DFTs of length `M` with a twiddle factor. -/
lemma dft_even_odd (M : ℕ) (hM : 0 < M) (x : ℕ → ℂ) (k : ℕ) :
    dft (2 * M) x k =
      dft M (fun m => x (2 * m)) (k % M) +
        exp (-2 * (π : ℂ) * I * k / ((2 * M : ℕ) : ℂ)) *
          dft M (fun m => x (2 * m + 1)) (k % M) := by
  have hMC : (M : ℂ) ≠ 0 := Nat.cast_ne_zero.mpr hM.ne'
  have h2MC : ((2 * M : ℕ) : ℂ) ≠ 0 := Nat.cast_ne_zero.mpr (by omega)
  unfold dft
  rw [sum_range_even_odd M (fun n => exp (-2 * (π : ℂ) * I * k * n / ((2 * M : ℕ) : ℂ)) * x n)]
  congr 1
  · refine Finset.sum_congr rfl fun m _ => ?_
    congr 1
    have harg : exp (-2 * (π : ℂ) * I * k * ((2 * m : ℕ) : ℂ) / ((2 * M : ℕ) : ℂ)) =
        exp (-2 * (π : ℂ) * I * k * m / M) := by
      congr 1
      push_cast
      field_simp
      ring
    rw [harg, exp_dft_mod M hM k m]
  · rw [Finset.mul_sum]
    refine Finset.sum_congr rfl fun m _ => ?_
    have harg : exp (-2 * (π : ℂ) * I * k * ((2 * m + 1 : ℕ) : ℂ) / ((2 * M : ℕ) : ℂ)) =
        exp (-2 * (π : ℂ) * I * k / ((2 * M : ℕ) : ℂ)) * exp (-2 * (π : ℂ) * I * k * m / M) := by
      rw [← Complex.exp_add]
      congr 1
      push_cast
      field_simp
      ring
    rw [harg, exp_dft_mod M hM k m]
    ring

/-- Correctness of the custom FFT: it agrees with the reference DFT at
every index `< N`. -/
lemma custom_fft_eq_dft (N : ℕ) (x : ℕ → ℂ) (k : ℕ) (hk : k < N) :
    custom_fft N x k = dft N x k := by
  induction N using Nat.strong_induction_on generalizing x k with
  | _ N ih =>
    by_cases h1 : N ≤ 1
    · have hN : N = 1 := by omega
      subst hN
      have hk0 : k = 0 := by omega
      subst hk0
      rw [custom_fft.eq_def, dif_pos h1]
      simp [dft]
    · by_cases h2 : N &&& (N - 1) ≠ 0
      · rw [custom_fft.eq_def, dif_neg h1, dif_pos h2]
        rfl
      · have hpow : N &&& (N - 1) = 0 := by
          by_contra hc
          exact h2 hc
        have heven : N % 2 = 0 := land_even (by omega) hpow
        obtain ⟨M, hNM⟩ : ∃ M, N = 2 * M := ⟨N / 2, by omega⟩
        have hM : 0 < M := by omega
        have hhalf : N / 2 = M := by omega
        rw [custom_fft.eq_def, dif_neg h1, dif_neg h2]
        simp only [hhalf]
        by_cases hkM : k < M
        · rw [if_pos hkM]
          rw [ih M (by omega) _ k hkM, ih M (by omega) _ k hkM]
          rw [hNM, dft_even_odd M hM x k, Nat.mod_eq_of_lt hkM]
        · rw [if_neg hkM]
          have hkM2 : k - M < M := by omega
          rw [ih M (by omega) _ (k - M) hkM2, ih M (by omega) _ (k - M) hkM2]
          rw [hNM, dft_even_odd M hM x k]
          have hmod : k % M = k - M := by
            rw [Nat.mod_eq_sub_mod (by omega), Nat.mod_eq_of_lt hkM2]
          rw [hmod]
          have htw : exp (-2 * (π : ℂ) * I * k / ((2 * M : ℕ) : ℂ)) =
              -exp (-2 * (π : ℂ) * I * ((k - M : ℕ) : ℂ) / ((2 * M : ℕ) : ℂ)) := by
            have hsplit : -2 * (π : ℂ) * I * k / ((2 * M : ℕ) : ℂ) =
                -2 * (π : ℂ) * I * ((k - M : ℕ) : ℂ) / ((2 * M : ℕ) : ℂ) + -((π : ℂ) * I) := by
              rw [show (k : ℂ) = ((k - M : ℕ) : ℂ) + ((M : ℕ) : ℂ) by
                push_cast [Nat.cast_sub (by omega : M ≤ k)]
                ring]
              have h2MC : ((2 * M : ℕ) : ℂ) ≠ 0 := Nat.cast_ne_zero.mpr (by omega)
              have hMC : ((M : ℕ) : ℂ) ≠ 0 := Nat.cast_ne_zero.mpr (by omega)
              field_simp
              ring
            rw [hsplit, Complex.exp_add, exp_neg_pi]
            ring
          rw [htw]
          ring

/-- Correctness of the custom inverse FFT against the reference inverse
DFT: for indices `< N` the conjugate-and-rescale identity computes `idft`. -/
lemma custom_ifft_eq_idft (N : ℕ) (x : ℕ → ℂ) (k : ℕ) (hk : k < N) :
    custom_ifft N x k = idft N x k := by
  have hc : ∀ y : ℕ → ℂ, ∀ n, custom_conj y n = (starRingEnd ℂ) (y n) := by
    intro y n
    unfold custom_conj
    apply Complex.ext <;> simp
  unfold custom_ifft
  rw [hc, custom_fft_eq_dft N _ k hk]
  unfold dft idft
  rw [map_sum]
  congr 1
  refine Finset.sum_congr rfl fun n _ => ?_
  rw [map_mul, hc]
  have hcc : (starRingEnd ℂ) ((starRingEnd ℂ) (x n)) = x n := Complex.conj_conj (x n)
  rw [hcc]
  congr 1
  rw [← Complex.exp_conj]
  congr 1
  simp only [map_mul, map_div₀, map_ofNat, Complex.conj_I, Complex.conj_ofReal, map_natCast,
    map_neg]
  ring

/-! ### Bridging the source functions to the reference transforms -/

/-- `power_ssp` in terms of the reference transforms: at indices `< D`
it is the real part of `idft (dft ^ e)`. -/
lemma power_ssp_eq_idft (D : ℕ) (ssp : ℕ → ℝ) (e : ℝ) {n : ℕ} (hn : n < D) :
    power_ssp D ssp e n =
      (idft D (fun k => dft D (fun j => ((ssp j : ℂ))) k ^ (e : ℂ)) n).re := by
  unfold power_ssp ifft fft
  rw [custom_ifft_eq_idft D _ n hn]
  congr 1
  refine idft_congr (fun k hk => ?_) n
  rw [custom_fft_eq_dft D _ k hk]

/-- `make_good_unitary` in terms of the reference inverse transform. -/
lemma make_good_unitary_eq (D : ℕ) (eps : ℝ) (a sign : ℕ → ℝ) {n : ℕ} (hn : n < D) :
    make_good_unitary D eps a sign n =
      (idft D (mgu_fv D (mgu_phi eps a sign)) n).re := by
  unfold make_good_unitary ifft
  rw [custom_ifft_eq_idft D _ n hn]

/-! ### The spectrum built by `make_good_unitary` -/

lemma conj_exp_real_mul_I (θ : ℝ) :
    (starRingEnd ℂ) (exp ((θ : ℝ) * I)) = exp (((-θ : ℝ) : ℂ) * I) := by
  rw [← Complex.exp_conj]
  congr 1
  simp only [map_mul, Complex.conj_ofReal, Complex.conj_I]
  push_cast
  ring

/-- Every bin of `mgu_fv` is the unit phasor of angle `mgu_theta`. -/
lemma mgu_fv_eq_exp (D : ℕ) (phi : ℕ → ℝ) (k : ℕ) :
    mgu_fv D phi k = exp (((mgu_theta D phi k : ℝ) : ℂ) * I) := by
  unfold mgu_fv mgu_theta
  split_ifs with h1 h2 h3
  · simp
  · rw [Complex.exp_mul_I, ← Complex.ofReal_cos, ← Complex.ofReal_sin, Complex.mk_eq_add_mul_I]
  · simp
  · rw [Complex.exp_mul_I, ← Complex.ofReal_cos, ← Complex.ofReal_sin, Complex.mk_eq_add_mul_I,
      Real.cos_neg, Real.sin_neg]

/-- Every bin of `mgu_fv` has magnitude exactly `1`, whatever the phases. -/
lemma mgu_fv_abs (D : ℕ) (phi : ℕ → ℝ) (k : ℕ) :
    Complex.abs (mgu_fv D phi k) = 1 := by
  rw [mgu_fv_eq_exp]
  exact Complex.abs_exp_ofReal_mul_I _

/-- The mirrored bin carries the opposite phase. -/
lemma mgu_theta_mirror (D : ℕ) (phi : ℕ → ℝ) {k : ℕ} (hk : k < D) :
    mgu_theta D phi ((D - k) % D) = -mgu_theta D phi k := by
  rcases Nat.eq_zero_or_pos k with rfl | hk0
  · simp [mgu_theta, Nat.mod_self]
  have hmod : (D - k) % D = D - k := Nat.mod_eq_of_lt (by omega)
  rw [hmod]
  unfold mgu_theta
  split_ifs with h1 h2 h3 h4 h5 h6 h7 h8 h9 h10 h11 h12 <;>
    first
      | omega
      | (simp only [neg_neg, neg_zero, neg_inj] <;>
          first
            | rfl
            | (congr 1
               omega))

/-- The spectrum built by `make_good_unitary` is conjugate-symmetric. -/
lemma mgu_fv_conjSymm (D : ℕ) (phi : ℕ → ℝ) : ConjSymm D (mgu_fv D phi) := by
  intro k hk
  rw [mgu_fv_eq_exp, mgu_fv_eq_exp, mgu_theta_mirror D phi hk, conj_exp_real_mul_I]

/-- The DFT of the vector returned by `make_good_unitary` is exactly the
constructed spectrum `mgu_fv`: the postcondition `np.allclose(fft(v), fv)`. -/
lemma mgu_dft (D : ℕ) (eps : ℝ) (a sign : ℕ → ℝ) {k : ℕ} (hk : k < D) :
    dft D (fun j => ((make_good_unitary D eps a sign j : ℝ) : ℂ)) k =
      mgu_fv D (mgu_phi eps a sign) k := by
  have h1 : ∀ n < D, ((make_good_unitary D eps a sign n : ℝ) : ℂ) =
      (((idft D (mgu_fv D (mgu_phi eps a sign)) n).re : ℝ) : ℂ) := by
    intro n hn
    rw [make_good_unitary_eq D eps a sign hn]
  rw [dft_congr h1 k]
  exact dft_re_idft (mgu_fv_conjSymm D _) hk

/-- The vector returned by `make_good_unitary` has squared norm exactly 1. -/
lemma mgu_sum_sq (D : ℕ) (hD : 0 < D) (eps : ℝ) (a sign : ℕ → ℝ) :
    ∑ n ∈ range D, (make_good_unitary D eps a sign n) ^ 2 = 1 := by
  have hfv := mgu_fv_conjSymm D (mgu_phi eps a sign)
  have h1 : ∀ n ∈ range D, (make_good_unitary D eps a sign n) ^ 2 =
      Complex.normSq (idft D (mgu_fv D (mgu_phi eps a sign)) n) := by
    intro n hn
    rw [make_good_unitary_eq D eps a sign (mem_range.mp hn), Complex.normSq_apply,
      idft_im_of_conjSymm hfv n]
    ring
  rw [Finset.sum_congr rfl h1, sum_normSq_idft]
  have h2 : ∀ l ∈ range D, Complex.normSq (mgu_fv D (mgu_phi eps a sign) l) = 1 := by
    intro l _
    have h := mgu_fv_abs D (mgu_phi eps a sign) l
    rw [← Complex.sq_abs, h, one_pow]
  rw [Finset.sum_congr rfl h2, Finset.sum_const, Finset.card_range, nsmul_eq_mul, mul_one]
  exact div_self (Nat.cast_ne_zero.mpr hD.ne')

/-! ### Complex powers of unit phasors -/

/-- Complex power of a unit phasor with principal-range angle:
`(e^{iθ})^e = e^{i·e·θ}` provided `θ ∈ (-π, π]`. -/
lemma cpow_exp_real (θ e : ℝ) (h1 : -π < θ) (h2 : θ ≤ π) :
    (exp ((θ : ℂ) * I)) ^ (e : ℂ) = exp (((e * θ : ℝ) : ℂ) * I) := by
  rw [Complex.cpow_def_of_ne_zero (Complex.exp_ne_zero _),
    Complex.log_exp (by simpa using h1) (by simpa using h2)]
  congr 1
  push_cast
  ring

/-- A unit-magnitude complex number is the phasor of its argument. -/
lemma eq_exp_arg {z : ℂ} (habs : Complex.abs z = 1) :
    z = exp ((Complex.arg z : ℝ) * I) := by
  conv_lhs => rw [← Complex.abs_mul_exp_arg_mul_I z]
  rw [habs]
  simp

/-- Iterated principal powers of a unit-magnitude number compose as long
as the intermediate phase `a·arg z` does not leave the principal branch. -/
lemma cpow_cpow_unit (z : ℂ) (habs : Complex.abs z = 1) (a b : ℝ)
    (hwrap : |a * Complex.arg z| < π) :
    (z ^ (a : ℂ)) ^ (b : ℂ) = z ^ ((a * b : ℝ) : ℂ) := by
  have hrep := eq_exp_arg habs
  have habs' := abs_lt.mp hwrap
  calc (z ^ (a : ℂ)) ^ (b : ℂ)
      = (exp (((Complex.arg z : ℝ) : ℂ) * I) ^ (a : ℂ)) ^ (b : ℂ) := by rw [← hrep]
    _ = (exp (((a * Complex.arg z : ℝ) : ℂ) * I)) ^ (b : ℂ) := by
        rw [cpow_exp_real _ a (Complex.neg_pi_lt_arg z) (Complex.arg_le_pi z)]
    _ = exp (((b * (a * Complex.arg z) : ℝ) : ℂ) * I) := by
        rw [cpow_exp_real _ b habs'.1 habs'.2.le]
    _ = exp (((a * b * Complex.arg z : ℝ) : ℂ) * I) := by
        congr 1
        push_cast
        ring
    _ = exp (((Complex.arg z : ℝ) : ℂ) * I) ^ ((a * b : ℝ) : ℂ) := by
        rw [cpow_exp_real _ (a * b) (Complex.neg_pi_lt_arg z) (Complex.arg_le_pi z)]
    _ = z ^ ((a * b : ℝ) : ℂ) := by
        rw [← hrep]

/-- The source's complex power agrees with the spec's
magnitude/phase formulation at every complex number. -/
lemma cpow_eq_spec_cpow (z : ℂ) (e : ℝ) : z ^ (e : ℂ) = spec_cpow z e := by
  unfold spec_cpow
  by_cases hz : z = 0
  · subst hz
    by_cases he : e = 0
    · subst he
      simp [Complex.cpow_zero, Real.rpow_zero]
    · rw [Complex.zero_cpow (Complex.ofReal_ne_zero.mpr he)]
      rw [map_zero, Real.zero_rpow he]
      simp
  · rw [Complex.cpow_def_of_ne_zero hz]
    have hlog : Complex.log z = ((Real.log (Complex.abs z) : ℝ) : ℂ) + (Complex.arg z : ℝ) * I := by
      unfold Complex.log
      norm_num
    rw [hlog]
    have habs : 0 < Complex.abs z := Complex.abs.pos hz
    rw [show (((Real.log (Complex.abs z) : ℝ) : ℂ) + (Complex.arg z : ℝ) * I) * (e : ℂ) =
        ((e * Real.log (Complex.abs z) : ℝ) : ℂ) + (e : ℂ) * (Complex.arg z : ℝ) * I by
      push_cast
      ring]
    rw [Complex.exp_add]
    congr 1
    rw [← Complex.ofReal_exp, Real.rpow_def_of_pos habs]
    rw [mul_comm (Real.log (Complex.abs z)) e]

/-! ### Phase bounds for `make_good_unitary` -/

/-- With `0 ≤ eps ≤ 1/2` and samples `a i ∈ [0,1)`, `sign i = ±1`, every
sampled phase magnitude lies in the closed interval `[π·eps, π·(1-eps)]`:
both assertions of `make_good_unitary` hold. -/
lemma mgu_phi_abs_eq (eps : ℝ) (a sign : ℕ → ℝ) {i : ℕ}
    (ht0 : 0 ≤ eps + a i * (1 - 2 * eps)) (hs : sign i = 1 ∨ sign i = -1) :
    |mgu_phi eps a sign i| = π * (eps + a i * (1 - 2 * eps)) := by
  have hpi := Real.pi_pos
  unfold mgu_phi
  rcases hs with h | h <;>
    rw [h] <;>
    · rw [abs_mul, abs_mul]
      norm_num
      rw [abs_eq_self.mpr hpi.le, abs_eq_self.mpr ht0]

lemma mgu_phi_bounds (eps : ℝ) (a sign : ℕ → ℝ)
    (heps0 : 0 ≤ eps) (heps2 : eps ≤ 1 / 2) {i : ℕ}
    (ha0 : 0 ≤ a i) (ha1 : a i < 1) (hs : sign i = 1 ∨ sign i = -1) :
    π * eps ≤ |mgu_phi eps a sign i| ∧ |mgu_phi eps a sign i| ≤ π * (1 - eps) := by
  have hpi := Real.pi_pos
  have hprod : 0 ≤ a i * (1 - 2 * eps) := mul_nonneg ha0 (by linarith)
  have ht0 : 0 ≤ eps + a i * (1 - 2 * eps) := by linarith
  have ht1 : eps + a i * (1 - 2 * eps) ≤ 1 - eps := by nlinarith
  rw [mgu_phi_abs_eq eps a sign ht0 hs]
  exact ⟨mul_le_mul_of_nonneg_left (by linarith) hpi.le,
    mul_le_mul_of_nonneg_left ht1 hpi.le⟩

/-- With `0 ≤ eps ≤ 1/2` and in-range samples, every sampled phase
magnitude is strictly below `π`. -/
lemma mgu_phi_abs_lt_pi (eps : ℝ) (a sign : ℕ → ℝ)
    (heps0 : 0 ≤ eps) (heps2 : eps ≤ 1 / 2) {i : ℕ}
    (ha0 : 0 ≤ a i) (ha1 : a i < 1) (hs : sign i = 1 ∨ sign i = -1) :
    |mgu_phi eps a sign i| < π := by
  have hpi := Real.pi_pos
  have hb := (mgu_phi_bounds eps a sign heps0 heps2 ha0 ha1 hs).2
  rcases eq_or_lt_of_le heps0 with heq | hlt
  · have heq' : eps = 0 := heq.symm
    subst heq'
    have ht0 : 0 ≤ (0 : ℝ) + a i * (1 - 2 * 0) := by nlinarith
    rw [mgu_phi_abs_eq 0 a sign ht0 hs]
    nlinarith
  · calc |mgu_phi eps a sign i| ≤ π * (1 - eps) := hb
      _ < π := by nlinarith

/-- Each bin phase of `mgu_fv` is `0` or `±` one of the sampled phases. -/
lemma mgu_theta_cases (D : ℕ) (phi : ℕ → ℝ) {k : ℕ} (hk : k < D) :
    mgu_theta D phi k = 0 ∨
      ∃ i < (D - 1) / 2, mgu_theta D phi k = phi i ∨ mgu_theta D phi k = -phi i := by
  unfold mgu_theta
  split_ifs with h1 h2 h3
  · exact Or.inl rfl
  · exact Or.inr ⟨k - 1, by omega, Or.inl rfl⟩
  · exact Or.inl rfl
  · exact Or.inr ⟨D - k - 1, by omega, Or.inr rfl⟩

/-- Every bin phase of the spectrum built by `make_good_unitary` is
strictly inside `(-π, π)` when `eps` and the samples are in range. -/
lemma mgu_theta_abs_lt_pi (D : ℕ) (eps : ℝ) (a sign : ℕ → ℝ)
    (heps0 : 0 ≤ eps) (heps2 : eps ≤ 1 / 2)
    (ha : ∀ i < (D - 1) / 2, 0 ≤ a i ∧ a i < 1)
    (hs : ∀ i < (D - 1) / 2, sign i = 1 ∨ sign i = -1)
    {k : ℕ} (hk : k < D) :
    |mgu_theta D (mgu_phi eps a sign) k| < π := by
  rcases mgu_theta_cases D (mgu_phi eps a sign) hk with h0 | ⟨i, hi, hcase⟩
  · rw [h0]
    simpa using Real.pi_pos
  · have hphi := mgu_phi_abs_lt_pi eps a sign heps0 heps2 (ha i hi).1 (ha i hi).2 (hs i hi)
    rcases hcase with h | h <;> rw [h]
    · exact hphi
    · rw [abs_neg]
      exact hphi

/-! ### Conjugate symmetry of powered spectra -/

/-- Principal powers preserve conjugate symmetry of a unit-magnitude
spectrum as long as no bin sits on the branch cut (phase `π`). -/
lemma conjSymm_cpow (D : ℕ) (F : ℕ → ℂ) (e : ℝ) (hcs : ConjSymm D F)
    (habs : ∀ k < D, Complex.abs (F k) = 1)
    (harg : ∀ k < D, |Complex.arg (F k)| < π) :
    ConjSymm D (fun k => F k ^ (e : ℂ)) := by
  intro k hk
  have hargk := abs_lt.mp (harg k hk)
  have hFk := eq_exp_arg (habs k hk)
  have hconj : (starRingEnd ℂ) (F k) = exp (((-Complex.arg (F k) : ℝ) : ℂ) * I) := by
    conv_lhs => rw [hFk]
    rw [conj_exp_real_mul_I]
  calc F ((D - k) % D) ^ (e : ℂ)
      = ((starRingEnd ℂ) (F k)) ^ (e : ℂ) := by rw [hcs k hk]
    _ = exp (((-Complex.arg (F k) : ℝ) : ℂ) * I) ^ (e : ℂ) := by rw [hconj]
    _ = exp (((e * -Complex.arg (F k) : ℝ) : ℂ) * I) := by
        rw [cpow_exp_real _ e (by linarith) (by linarith)]
    _ = exp (((-(e * Complex.arg (F k)) : ℝ) : ℂ) * I) := by
        congr 1
        push_cast
        ring
    _ = (starRingEnd ℂ) (exp (((e * Complex.arg (F k) : ℝ) : ℂ) * I)) := by
        rw [conj_exp_real_mul_I]
    _ = (starRingEnd ℂ) (F k ^ (e : ℂ)) := by
        conv_rhs => rw [hFk, cpow_exp_real _ e hargk.1 hargk.2.le]

lemma arg_exp_real (θ : ℝ) (h1 : -π < θ) (h2 : θ ≤ π) :
    Complex.arg (exp ((θ : ℝ) * I)) = θ := by
  rw [Complex.exp_mul_I]
  exact Complex.arg_cos_add_sin_mul_I ⟨h1, h2⟩

/-- Principal powers preserve unit magnitude. -/
lemma abs_cpow_unit {z : ℂ} (habs : Complex.abs z = 1) (e : ℝ) :
    Complex.abs (z ^ (e : ℂ)) = 1 := by
  conv_lhs => rw [eq_exp_arg habs]
  rw [cpow_exp_real _ e (Complex.neg_pi_lt_arg z) (Complex.arg_le_pi z),
    Complex.abs_exp_ofReal_mul_I]

/-- When the powered spectrum is conjugate-symmetric, the DFT of
`power_ssp`'s output recovers that powered spectrum. -/
lemma dft_power_ssp (D : ℕ) (v : ℕ → ℝ) (e : ℝ)
    (hcs : ConjSymm D (fun k => dft D (fun j => ((v j : ℂ))) k ^ (e : ℂ)))
    {k : ℕ} (hk : k < D) :
    dft D (fun j => ((power_ssp D v e j : ℝ) : ℂ)) k =
      dft D (fun j => ((v j : ℂ))) k ^ (e : ℂ) := by
  have h1 : ∀ n < D, ((power_ssp D v e n : ℝ) : ℂ) =
      (((idft D (fun k => dft D (fun j => ((v j : ℂ))) k ^ (e : ℂ)) n).re : ℝ) : ℂ) := by
    intro n hn
    rw [power_ssp_eq_idft D v e hn]
  rw [dft_congr h1 k]
  exact dft_re_idft hcs hk

/-- `power_ssp` preserves the squared Euclidean norm of a valid SSP
exactly, whenever the powered spectrum stays conjugate-symmetric. -/
lemma power_ssp_sum_sq (D : ℕ) (hD : 0 < D) (v : ℕ → ℝ) (e : ℝ)
    (habs : ∀ k < D, Complex.abs (dft D (fun j => ((v j : ℂ))) k) = 1)
    (hcs : ConjSymm D (fun k => dft D (fun j => ((v j : ℂ))) k ^ (e : ℂ))) :
    ∑ n ∈ range D, (power_ssp D v e n) ^ 2 = 1 := by
  have h1 : ∀ n ∈ range D, (power_ssp D v e n) ^ 2 =
      Complex.normSq (idft D (fun k => dft D (fun j => ((v j : ℂ))) k ^ (e : ℂ)) n) := by
    intro n hn
    rw [power_ssp_eq_idft D v e (mem_range.mp hn), Complex.normSq_apply,
      idft_im_of_conjSymm hcs n]
    ring
  rw [Finset.sum_congr rfl h1, sum_normSq_idft]
  have h2 : ∀ l ∈ range D,
      Complex.normSq (dft D (fun j => ((v j : ℂ))) l ^ (e : ℂ)) = 1 := by
    intro l hl
    rw [← Complex.sq_abs, abs_cpow_unit (habs l (mem_range.mp hl)) e, one_pow]
  rw [Finset.sum_congr rfl h2, Finset.sum_const, Finset.card_range, nsmul_eq_mul, mul_one]
  exact div_self (Nat.cast_ne_zero.mpr hD.ne')

/-- The convolution theorem for squaring: the inverse transform of the
squared spectrum of a real vector is its circular self-convolution. -/
lemma idft_dft_sq (D : ℕ) (v : ℕ → ℝ) {n : ℕ} (hn : n < D) :
    idft D (fun k => dft D (fun j => ((v j : ℂ))) k ^ (2 : ℕ)) n =
      ((circConv D v v n : ℝ) : ℂ) := by
  have hD : 0 < D := lt_of_le_of_lt (Nat.zero_le n) hn
  have hDC : (D : ℂ) ≠ 0 := Nat.cast_ne_zero.mpr hD.ne'
  unfold idft dft circConv
  have step1 : ∀ k ∈ range D,
      exp (2 * (π : ℂ) * I * n * k / D) *
          (∑ m ∈ range D, exp (-2 * (π : ℂ) * I * k * m / D) * ((v m : ℂ))) ^ (2 : ℕ) =
        ∑ m ∈ range D, ∑ l ∈ range D,
          exp (2 * (π : ℂ) * I * k * (((n : ℤ) - m - l : ℤ) : ℂ) / D) *
            (((v m : ℂ)) * ((v l : ℂ))) := by
    intro k _
    rw [sq, Finset.sum_mul_sum, Finset.mul_sum]
    refine Finset.sum_congr rfl fun m _ => ?_
    rw [Finset.mul_sum]
    refine Finset.sum_congr rfl fun l _ => ?_
    rw [show exp (2 * (π : ℂ) * I * n * k / D) *
        (exp (-2 * (π : ℂ) * I * k * m / D) * ((v m : ℂ)) *
          (exp (-2 * (π : ℂ) * I * k * l / D) * ((v l : ℂ)))) =
        exp (2 * (π : ℂ) * I * n * k / D) * exp (-2 * (π : ℂ) * I * k * m / D) *
          exp (-2 * (π : ℂ) * I * k * l / D) * (((v m : ℂ)) * ((v l : ℂ))) from by ring]
    rw [← Complex.exp_add, ← Complex.exp_add]
    congr 2
    push_cast
    ring
  rw [Finset.sum_congr rfl step1, Finset.sum_comm]
  have step2 : ∀ m ∈ range D,
      ∑ k ∈ range D, ∑ l ∈ range D,
          exp (2 * (π : ℂ) * I * k * (((n : ℤ) - m - l : ℤ) : ℂ) / D) *
            (((v m : ℂ)) * ((v l : ℂ))) =
        (D : ℂ) * (((v m : ℂ)) * ((v ((D + n - m) % D) : ℂ))) := by
    intro m hm
    rw [Finset.sum_comm]
    have hmD := mem_range.mp hm
    set l₀ := (D + n - m) % D with hl₀
    have hl₀lt : l₀ < D := Nat.mod_lt _ hD
    have hq := Nat.div_add_mod (D + n - m) D
    have hcast : ((D + n - m : ℕ) : ℤ) = (D : ℤ) + n - m := by
      push_cast [Nat.cast_sub (by omega : m ≤ D + n)]
      ring
    have hdvd₀ : (D : ℤ) ∣ ((n : ℤ) - m - l₀) := by
      refine ⟨((D + n - m) / D : ℕ) - 1, ?_⟩
      have hqz : (D : ℤ) * ((D + n - m) / D : ℕ) + (l₀ : ℤ) = (D : ℤ) + n - m := by
        rw [← hcast]
        exact_mod_cast congrArg (Nat.cast : ℕ → ℤ) hq
      linarith [hqz]
    have step3 : ∀ l ∈ range D,
        ∑ k ∈ range D,
            exp (2 * (π : ℂ) * I * k * (((n : ℤ) - m - l : ℤ) : ℂ) / D) *
              (((v m : ℂ)) * ((v l : ℂ))) =
          (if (D : ℤ) ∣ ((n : ℤ) - m - l) then (D : ℂ) else 0) *
            (((v m : ℂ)) * ((v l : ℂ))) := by
      intro l _
      rw [← Finset.sum_mul, orth_int D hD ((n : ℤ) - m - l)]
    rw [Finset.sum_congr rfl step3]
    rw [Finset.sum_eq_single_of_mem l₀ (mem_range.mpr hl₀lt)]
    · rw [if_pos hdvd₀]
    · intro l hl hne
      rw [if_neg, zero_mul]
      intro hdl
      have hdiff : (D : ℤ) ∣ ((l : ℤ) - l₀) := by
        have h5 := dvd_sub hdl hdvd₀
        rw [show ((n : ℤ) - m - l - ((n : ℤ) - m - l₀)) = (l₀ : ℤ) - l from by ring] at h5
        rw [show (l : ℤ) - l₀ = -((l₀ : ℤ) - l) from by ring]
        exact dvd_neg.mpr h5
      have habs2 : |(l : ℤ) - l₀| < (D : ℤ) := by
        rw [abs_lt]
        have := mem_range.mp hl
        omega
      have := Int.eq_zero_of_abs_lt_dvd hdiff habs2
      omega
  rw [Finset.sum_congr rfl step2, ← Finset.mul_sum, mul_comm ((D : ℂ)) _, mul_div_assoc,
    div_self hDC, mul_one]
  push_cast
  rfl

lemma conjSymm_congr {D : ℕ} {G H : ℕ → ℂ} (h : ∀ k < D, G k = H k)
    (hH : ConjSymm D H) : ConjSymm D G := by
  intro k hk
  have hD : 0 < D := lt_of_le_of_lt (Nat.zero_le k) hk
  rw [h k hk, h _ (mirror_lt D k hD)]
  exact hH k hk

/-- The spectrum bins of `make_good_unitary` have principal argument
strictly inside `(-π, π)` when `eps` and the samples are in range. -/
lemma mgu_arg_lt_pi (D : ℕ) (eps : ℝ) (a sign : ℕ → ℝ)
    (heps0 : 0 ≤ eps) (heps2 : eps ≤ 1 / 2)
    (ha : ∀ i < (D - 1) / 2, 0 ≤ a i ∧ a i < 1)
    (hs : ∀ i < (D - 1) / 2, sign i = 1 ∨ sign i = -1)
    {k : ℕ} (hk : k < D) :
    |Complex.arg (mgu_fv D (mgu_phi eps a sign) k)| < π := by
  have hth := mgu_theta_abs_lt_pi D eps a sign heps0 heps2 ha hs hk
  have hth' := abs_lt.mp hth
  rw [mgu_fv_eq_exp, arg_exp_real _ hth'.1 hth'.2.le]
  exact hth

/-- The inverse transform of the all-ones spectrum is the impulse. -/
lemma idft_one (D : ℕ) {n : ℕ} (hn : n < D) :
    idft D (fun _ => (1 : ℂ)) n = if n = 0 then 1 else 0 := by
  have hD : 0 < D := lt_of_le_of_lt (Nat.zero_le n) hn
  have hDC : (D : ℂ) ≠ 0 := Nat.cast_ne_zero.mpr hD.ne'
  unfold idft
  have h : ∀ k ∈ range D, exp (2 * (π : ℂ) * I * n * k / D) * 1 =
      exp (2 * (π : ℂ) * I * k * (((n : ℤ) : ℤ) : ℂ) / D) := by
    intro k _
    rw [mul_one]
    congr 1
    push_cast
    ring
  rw [Finset.sum_congr rfl h, orth_int D hD (n : ℤ)]
  by_cases hn0 : n = 0
  · subst hn0
    norm_num
    exact div_self hDC
  · rw [if_neg, if_neg hn0, zero_div]
    intro hdvd
    have habs2 : |(n : ℤ)| < (D : ℤ) := by
      rw [abs_lt]
      omega
    have := Int.eq_zero_of_abs_lt_dvd hdvd habs2
    omega

/-- Shifting a phasor angle by a full turn leaves it unchanged. -/
lemma exp_real_mul_I_add_two_pi (θ : ℝ) :
    exp (((θ + 2 * π : ℝ) : ℂ) * I) = exp ((θ : ℝ) * I) := by
  have h : (((θ + 2 * π : ℝ) : ℂ) * I) = ((θ : ℝ) : ℂ) * I + 2 * (π : ℂ) * I * ((1 : ℕ) : ℂ) := by
    push_cast
    ring
  rw [h, Complex.exp_add, exp_nat_two_pi, mul_one]

/-- Concrete evaluation of the length-3 inverse transform at index 0. -/
lemma idft3_zero (G : ℕ → ℂ) : idft 3 G 0 = (G 0 + G 1 + G 2) / 3 := by
  unfold idft
  rw [Finset.sum_range_succ, Finset.sum_range_succ, Finset.sum_range_one]
  norm_num

/-- Concrete evaluation of the length-1 DFT. -/
lemma dft1 (x : ℕ → ℂ) : dft 1 x 0 = x 0 := by
  unfold dft
  rw [Finset.sum_range_one]
  norm_num

/-- The two phase assertions hold for every `eps ≤ 1/2` (even negative)
as long as the samples are in range. -/
lemma mgu_phi_bounds_of_le_half (eps : ℝ) (a sign : ℕ → ℝ) (heps2 : eps ≤ 1 / 2) {i : ℕ}
    (ha0 : 0 ≤ a i) (ha1 : a i < 1) (hs : sign i = 1 ∨ sign i = -1) :
    π * eps ≤ |mgu_phi eps a sign i| ∧ |mgu_phi eps a sign i| ≤ π * (1 - eps) := by
  have hpi := Real.pi_pos
  have habs : |mgu_phi eps a sign i| = π * |eps + a i * (1 - 2 * eps)| := by
    unfold mgu_phi
    rcases hs with h | h
    · rw [h, one_mul, abs_mul, abs_eq_self.mpr hpi.le]
    · rw [h, show (-1 : ℝ) * π * (eps + a i * (1 - 2 * eps)) =
        -(π * (eps + a i * (1 - 2 * eps))) from by ring, abs_neg, abs_mul,
        abs_eq_self.mpr hpi.le]
  have h1 : eps + a i * (1 - 2 * eps) ≤ 1 - eps := by nlinarith
  have h2 : eps ≤ eps + a i * (1 - 2 * eps) := by nlinarith
  have h3 : -(1 - eps) ≤ eps + a i * (1 - 2 * eps) := by nlinarith
  constructor
  · rw [habs]
    have h4 : eps ≤ |eps + a i * (1 - 2 * eps)| :=
      le_trans h2 (le_abs_self _)
    nlinarith
  · rw [habs]
    have h4 : |eps + a i * (1 - 2 * eps)| ≤ 1 - eps := abs_le.mpr ⟨h3, h1⟩
    nlinarith

/-- Squaring (exponent `2` as a real cpow) preserves conjugate symmetry
of the spectrum of any real vector. -/
lemma conjSymm_sq (D : ℕ) (v : ℕ → ℝ) :
    ConjSymm D (fun k => dft D (fun j => ((v j : ℂ))) k ^ (((2 : ℝ)) : ℂ)) := by
  have hcs := dft_conjSymm_of_real D v
  intro k hk
  have hcast : (((2 : ℝ)) : ℂ) = ((2 : ℕ) : ℂ) := by norm_num
  simp only [hcast, Complex.cpow_natCast]
  rw [hcs k hk, ← map_pow]

/-- The spectrum of `make_good_unitary` has unit magnitude on the range. -/
lemma mgu_habs (D : ℕ) (eps : ℝ) (a sign : ℕ → ℝ) :
    ∀ k < D, Complex.abs
      (dft D (fun j => ((make_good_unitary D eps a sign j : ℝ) : ℂ)) k) = 1 := by
  intro k hk
  rw [mgu_dft D eps a sign hk]
  exact mgu_fv_abs D _ k

lemma exp_real_mul_I_sub_two_pi (θ : ℝ) :
    exp (((θ - 2 * π : ℝ) : ℂ) * I) = exp ((θ : ℝ) * I) := by
  have h := exp_real_mul_I_add_two_pi (θ - 2 * π)
  rw [show (θ - 2 * π + 2 * π : ℝ) = θ from by ring] at h
  exact h.symm

lemma phiC1_val : mgu_phi 0 (fun _ => (3 / 4 : ℝ)) (fun _ => (1 : ℝ)) 0 = π * (3 / 4) := by
  simp only [mgu_phi]
  ring

lemma thetaC1_0 : mgu_theta 3 (mgu_phi 0 (fun _ => (3 / 4 : ℝ)) (fun _ => (1 : ℝ))) 0 = 0 := by
  unfold mgu_theta
  norm_num

lemma thetaC1_1 :
    mgu_theta 3 (mgu_phi 0 (fun _ => (3 / 4 : ℝ)) (fun _ => (1 : ℝ))) 1 = π * (3 / 4) := by
  unfold mgu_theta
  norm_num
  exact phiC1_val

lemma thetaC1_2 :
    mgu_theta 3 (mgu_phi 0 (fun _ => (3 / 4 : ℝ)) (fun _ => (1 : ℝ))) 2 = -(π * (3 / 4)) := by
  unfold mgu_theta
  norm_num
  exact phiC1_val

lemma fvC1_0 : mgu_fv 3 (mgu_phi 0 (fun _ => (3 / 4 : ℝ)) (fun _ => (1 : ℝ))) 0 = 1 := by
  unfold mgu_fv
  norm_num

lemma fvC1_1 : mgu_fv 3 (mgu_phi 0 (fun _ => (3 / 4 : ℝ)) (fun _ => (1 : ℝ))) 1 =
    exp (((π * (3 / 4) : ℝ) : ℂ) * I) := by
  rw [mgu_fv_eq_exp, thetaC1_1]

lemma fvC1_2 : mgu_fv 3 (mgu_phi 0 (fun _ => (3 / 4 : ℝ)) (fun _ => (1 : ℝ))) 2 =
    exp (((-(π * (3 / 4)) : ℝ) : ℂ) * I) := by
  rw [mgu_fv_eq_exp, thetaC1_2]

lemma dft_vC1 : ∀ k < 3, dft 3 (fun j => ((vC1 j : ℂ))) k =
    mgu_fv 3 (mgu_phi 0 (fun _ => (3 / 4 : ℝ)) (fun _ => (1 : ℝ))) k := by
  intro k hk
  unfold vC1
  exact mgu_dft 3 0 (fun _ => 3 / 4) (fun _ => 1) hk

/-! ### Claim theorems -/

/-- Claim C2 (amended): for every `D ≥ 2`, every `eps ≤ 1/2` and every
seed (samples `a i ∈ [0,1)`, `sign i = ±1`), both phase assertions of
`make_good_unitary` pass and the returned length-`D` vector has
Euclidean norm within `1e-5` of `1` (exactly `1` in exact arithmetic).
The original claim's "every eps" fails for `eps > 1/2`, where the second
assertion aborts the call. -/
theorem C2_make_good_unitary_norm (D : ℕ) (eps : ℝ) (a sign : ℕ → ℝ)
    (hD : 2 ≤ D) (heps2 : eps ≤ 1 / 2)
    (ha : ∀ i < (D - 1) / 2, 0 ≤ a i ∧ a i < 1)
    (hs : ∀ i < (D - 1) / 2, sign i = 1 ∨ sign i = -1) :
    mgu_assert1 D eps a sign ∧ mgu_assert2 D eps a sign ∧
      |Real.sqrt (∑ n ∈ range D, (make_good_unitary D eps a sign n) ^ 2) - 1| ≤ 1e-5 := by
  refine ⟨fun i hi => ?_, fun i hi => ?_, ?_⟩
  · exact (mgu_phi_bounds_of_le_half eps a sign heps2 (ha i hi).1 (ha i hi).2 (hs i hi)).1
  · exact (mgu_phi_bounds_of_le_half eps a sign heps2 (ha i hi).1 (ha i hi).2 (hs i hi)).2
  · rw [mgu_sum_sq D (by omega) eps a sign, Real.sqrt_one]
    norm_num

/-- Claim C2, witness: the amended theorem applied at `D = 2`,
`eps = 1e-3` and a concrete seed. -/
theorem C2_make_good_unitary_norm_witness :
    ((2 : ℕ) ≤ 2 ∧ (1e-3 : ℝ) ≤ 1 / 2) ∧
      (mgu_assert1 2 1e-3 (fun _ => 0) (fun _ => 1) ∧
        mgu_assert2 2 1e-3 (fun _ => 0) (fun _ => 1) ∧
        |Real.sqrt (∑ n ∈ range 2, (make_good_unitary 2 1e-3 (fun _ => 0) (fun _ => 1) n) ^ 2)
          - 1| ≤ 1e-5) :=
  ⟨⟨le_refl 2, by norm_num⟩,
    C2_make_good_unitary_norm 2 1e-3 (fun _ => 0) (fun _ => 1) (le_refl 2) (by norm_num)
      (fun i hi => absurd hi (by norm_num)) (fun i hi => absurd hi (by norm_num))⟩

/-- Claim C2, counterexample to the original "every eps": at `eps = 1`
(with `D = 3` and a legitimate sample `a 0 = 0 ∈ [0,1)`, `sign 0 = 1`)
the second phase assertion of `make_good_unitary` is violated, so the
function raises instead of returning a vector. -/
theorem C2_make_good_unitary_norm_counterexample :
    (0 : ℝ) ≤ 0 ∧ (0 : ℝ) < 1 ∧ ¬ mgu_assert2 3 1 (fun _ => (0 : ℝ)) (fun _ => (1 : ℝ)) := by
  refine ⟨le_refl 0, by norm_num, fun h => ?_⟩
  have h0 := h 0 (by norm_num)
  have hphi : mgu_phi 1 (fun _ => (0 : ℝ)) (fun _ => (1 : ℝ)) 0 = π := by
    simp only [mgu_phi]
    ring
  rw [hphi, abs_eq_self.mpr Real.pi_pos.le] at h0
  nlinarith [Real.pi_pos]

/-- Claim C3: for every `D`, `eps` and seed, the DFT magnitude of the
vector built by `make_good_unitary` is within `1e-5` of `1` at every
frequency bin (it is exactly `1` in exact arithmetic). -/
theorem C3_mgu_unit_spectrum (D : ℕ) (eps : ℝ) (a sign : ℕ → ℝ) {k : ℕ} (hk : k < D) :
    |Complex.abs (dft D (fun j => ((make_good_unitary D eps a sign j : ℝ) : ℂ)) k) - 1|
      ≤ 1e-5 := by
  rw [mgu_dft D eps a sign hk, mgu_fv_abs]
  norm_num

/-- Claim C3, witness: bin `0` of a `D = 2` instance. -/
theorem C3_mgu_unit_spectrum_witness :
    (0 : ℕ) < 2 ∧
      |Complex.abs (dft 2
        (fun j => ((make_good_unitary 2 1e-3 (fun _ => 0) (fun _ => 1) j : ℝ) : ℂ)) 0) - 1|
        ≤ 1e-5 :=
  ⟨by norm_num, C3_mgu_unit_spectrum 2 1e-3 (fun _ => 0) (fun _ => 1) (by norm_num)⟩

/-- Claim C4: for every valid SSP vector `v` (unit-magnitude spectrum),
`power_ssp v 1` is exactly `v` in exact arithmetic. -/
theorem C4_power_one (D : ℕ) (v : ℕ → ℝ) (hv : IsSSP D v) {n : ℕ} (hn : n < D) :
    power_ssp D v 1 n = v n := by
  rw [power_ssp_eq_idft D v 1 hn]
  have h : ∀ k < D, dft D (fun j => ((v j : ℂ))) k ^ ((1 : ℝ) : ℂ) =
      dft D (fun j => ((v j : ℂ))) k := by
    intro k _
    rw [Complex.ofReal_one, Complex.cpow_one]
  rw [idft_congr h n, idft_dft D _ hn]
  simp

/-- Claim C4, witness: the constant vector `[1]` of length 1 is a valid
SSP and is fixed by `power_ssp · 1`. -/
theorem C4_power_one_witness :
    IsSSP 1 (fun _ => (1 : ℝ)) ∧ (∀ n < 1, power_ssp 1 (fun _ => (1 : ℝ)) 1 n = 1) := by
  have hssp : IsSSP 1 (fun _ => (1 : ℝ)) := by
    intro k hk
    have hk0 : k = 0 := by omega
    subst hk0
    rw [dft1]
    norm_num
  exact ⟨hssp, fun n hn => C4_power_one 1 (fun _ => (1 : ℝ)) hssp hn⟩

/-- Claim C5: for every valid SSP vector `v` of length `D`,
`power_ssp v 0` is exactly the impulse vector `[1, 0, …, 0]`. -/
theorem C5_power_zero (D : ℕ) (v : ℕ → ℝ) (hv : IsSSP D v) {n : ℕ} (hn : n < D) :
    power_ssp D v 0 n = if n = 0 then 1 else 0 := by
  rw [power_ssp_eq_idft D v 0 hn]
  have h : ∀ k < D, dft D (fun j => ((v j : ℂ))) k ^ ((0 : ℝ) : ℂ) = 1 := by
    intro k _
    rw [Complex.ofReal_zero, Complex.cpow_zero]
  rw [idft_congr h n, idft_one D hn]
  split_ifs <;> simp

/-- Claim C5, witness: the length-1 valid SSP `[1]`. -/
theorem C5_power_zero_witness :
    IsSSP 1 (fun _ => (1 : ℝ)) ∧
      (∀ n < 1, power_ssp 1 (fun _ => (1 : ℝ)) 0 n = if n = 0 then 1 else 0) := by
  have hssp : IsSSP 1 (fun _ => (1 : ℝ)) := by
    intro k hk
    have hk0 : k = 0 := by omega
    subst hk0
    rw [dft1]
    norm_num
  exact ⟨hssp, fun n hn => C5_power_zero 1 (fun _ => (1 : ℝ)) hssp hn⟩

/-- Claim C7: at every index `< N`, `custom_fft` computes the reference
DFT (hence agrees with the library transform, which computes the same
reference DFT) and `custom_ifft` computes the reference inverse DFT, so
the two transform backends are interchangeable. -/
theorem C7_custom_fft_correct (N : ℕ) (x : ℕ → ℂ) {k : ℕ} (hk : k < N) :
    custom_fft N x k = dft N x k ∧ custom_ifft N x k = idft N x k :=
  ⟨custom_fft_eq_dft N x k hk, custom_ifft_eq_idft N x k hk⟩

/-- Claim C7, witness: length-1 instance. -/
theorem C7_custom_fft_correct_witness :
    (0 : ℕ) < 1 ∧
      (custom_fft 1 (fun _ => 1) 0 = dft 1 (fun _ => 1) 0 ∧
        custom_ifft 1 (fun _ => 1) 0 = idft 1 (fun _ => 1) 0) :=
  ⟨by norm_num, C7_custom_fft_correct 1 (fun _ => 1) (by norm_num)⟩

/-- Claim C8 (amended): for every `D`, every `eps ∈ [0, 1/2]` and every
seed, each sampled phase magnitude lies in the closed interval
`[eps·π, (1-eps)·π]` — the two assertions never fail.  (As originally
worded, with strict containment, the claim fails when a sample hits an
endpoint, e.g. `a i = 0`.) -/
theorem C8_phase_assertions (D : ℕ) (eps : ℝ) (a sign : ℕ → ℝ)
    (heps0 : 0 ≤ eps) (heps2 : eps ≤ 1 / 2)
    (ha : ∀ i < (D - 1) / 2, 0 ≤ a i ∧ a i < 1)
    (hs : ∀ i < (D - 1) / 2, sign i = 1 ∨ sign i = -1) :
    mgu_assert1 D eps a sign ∧ mgu_assert2 D eps a sign :=
  ⟨fun i hi =>
      (mgu_phi_bounds_of_le_half eps a sign heps2 (ha i hi).1 (ha i hi).2 (hs i hi)).1,
    fun i hi =>
      (mgu_phi_bounds_of_le_half eps a sign heps2 (ha i hi).1 (ha i hi).2 (hs i hi)).2⟩

/-- Claim C8, witness: `D = 3`, `eps = 1/4`, sample `a 0 = 1/2`. -/
theorem C8_phase_assertions_witness :
    ((0 : ℝ) ≤ 1 / 4 ∧ (1 / 4 : ℝ) ≤ 1 / 2) ∧
      (mgu_assert1 3 (1 / 4) (fun _ => 1 / 2) (fun _ => 1) ∧
        mgu_assert2 3 (1 / 4) (fun _ => 1 / 2) (fun _ => 1)) :=
  ⟨⟨by norm_num, by norm_num⟩,
    C8_phase_assertions 3 (1 / 4) (fun _ => 1 / 2) (fun _ => 1) (by norm_num) (by norm_num)
      (fun i _ => ⟨by norm_num, by norm_num⟩) (fun i _ => Or.inl rfl)⟩

/-- Claim C8, counterexample to strict containment: with `eps = 1/4` and
the legitimate sample `a 0 = 0`, the phase magnitude equals the lower
endpoint `eps·π` exactly, so it does not lie strictly inside the
interval. -/
theorem C8_phase_assertions_counterexample :
    (0 : ℝ) ≤ 0 ∧ (0 : ℝ) < 1 ∧
      |mgu_phi (1 / 4) (fun _ => (0 : ℝ)) (fun _ => (1 : ℝ)) 0| = π * (1 / 4) ∧
      ¬ (π * (1 / 4) < |mgu_phi (1 / 4) (fun _ => (0 : ℝ)) (fun _ => (1 : ℝ)) 0|) := by
  have hphi : mgu_phi (1 / 4) (fun _ => (0 : ℝ)) (fun _ => (1 : ℝ)) 0 = π * (1 / 4) := by
    simp only [mgu_phi]
    ring
  have habs : |mgu_phi (1 / 4) (fun _ => (0 : ℝ)) (fun _ => (1 : ℝ)) 0| = π * (1 / 4) := by
    rw [hphi, abs_eq_self.mpr (by positivity)]
  refine ⟨le_refl 0, by norm_num, habs, ?_⟩
  rw [habs]
  exact lt_irrefl _

/-- Claim C6: for every real input vector and every real exponent
(fractional and negative included, with no validation), `power_ssp`
returns the real part of the inverse DFT of the elementwise principal
complex power (`magnitude^exponent · e^{i·exponent·phase}`) of the DFT
of the input. -/
theorem C6_power_ssp_contract (D : ℕ) (ssp : ℕ → ℝ) (e : ℝ) {n : ℕ} (hn : n < D) :
    power_ssp D ssp e n = spec_power_ssp D ssp e n := by
  rw [power_ssp_eq_idft D ssp e hn]
  have h : ∀ k < D, dft D (fun j => ((ssp j : ℂ))) k ^ (e : ℂ) =
      spec_cpow (dft D (fun j => ((ssp j : ℂ))) k) e := by
    intro k _
    exact cpow_eq_spec_cpow _ e
  rw [idft_congr h n]
  rfl

/-- Claim C6, witness: `D = 1`, constant vector, fractional exponent. -/
theorem C6_power_ssp_contract_witness :
    (0 : ℕ) < 1 ∧
      power_ssp 1 (fun _ => 1) (1 / 2) 0 = spec_power_ssp 1 (fun _ => 1) (1 / 2) 0 :=
  ⟨by norm_num, C6_power_ssp_contract 1 (fun _ => 1) (1 / 2) (by norm_num)⟩

/-- Claim C9 (amended): for every vector `v` built by `make_good_unitary`
(any `D ≥ 1`, `eps`, seed), `power_ssp v 2` equals the circular
self-convolution of `v`, and its Euclidean norm is exactly `1` (hence
`≤ 1`): energy is conserved, not merely bounded, because the spectrum
has unit magnitude. -/
theorem C9_power_two_convolution (D : ℕ) (hD : 0 < D) (eps : ℝ) (a sign : ℕ → ℝ) :
    (∀ n < D, power_ssp D (make_good_unitary D eps a sign) 2 n =
      circConv D (make_good_unitary D eps a sign) (make_good_unitary D eps a sign) n) ∧
    Real.sqrt (∑ n ∈ range D,
      (power_ssp D (make_good_unitary D eps a sign) 2 n) ^ 2) = 1 := by
  set v := make_good_unitary D eps a sign with hv
  constructor
  · intro n hn
    rw [power_ssp_eq_idft D v 2 hn]
    have hcast : ∀ k < D, dft D (fun j => ((v j : ℂ))) k ^ (((2 : ℝ)) : ℂ) =
        dft D (fun j => ((v j : ℂ))) k ^ (2 : ℕ) := by
      intro k _
      rw [show (((2 : ℝ)) : ℂ) = ((2 : ℕ) : ℂ) from by norm_num, Complex.cpow_natCast]
    rw [idft_congr hcast n, idft_dft_sq D v hn]
    simp
  · rw [power_ssp_sum_sq D hD v 2 (mgu_habs D eps a sign) (conjSymm_sq D v), Real.sqrt_one]

/-- Claim C9, witness: `D = 8` with a fixed seed. -/
theorem C9_power_two_convolution_witness :
    (0 : ℕ) < 8 ∧
      ((∀ n < 8, power_ssp 8 (make_good_unitary 8 1e-3 (fun _ => 0) (fun _ => 1)) 2 n =
        circConv 8 (make_good_unitary 8 1e-3 (fun _ => 0) (fun _ => 1))
          (make_good_unitary 8 1e-3 (fun _ => 0) (fun _ => 1)) n) ∧
      Real.sqrt (∑ n ∈ range 8,
        (power_ssp 8 (make_good_unitary 8 1e-3 (fun _ => 0) (fun _ => 1)) 2 n) ^ 2) = 1) :=
  ⟨by norm_num, C9_power_two_convolution 8 (by norm_num) 1e-3 (fun _ => 0) (fun _ => 1)⟩

/-- Claim C9, counterexample to "energy redistributed rather than
conserved for exponents ≠ 1": at `D = 8` with a fixed seed, squaring
via `power_ssp` conserves the energy exactly — the output's summed
squared entries equal the input's. -/
theorem C9_power_two_convolution_counterexample :
    ∑ n ∈ range 8, (power_ssp 8 (make_good_unitary 8 1e-3 (fun _ => 0) (fun _ => 1)) 2 n) ^ 2 =
      ∑ n ∈ range 8, (make_good_unitary 8 1e-3 (fun _ => 0) (fun _ => 1) n) ^ 2 := by
  rw [power_ssp_sum_sq 8 (by norm_num) _ 2 (mgu_habs 8 1e-3 (fun _ => 0) (fun _ => 1))
    (conjSymm_sq 8 _), mgu_sum_sq 8 (by norm_num) 1e-3 (fun _ => 0) (fun _ => 1)]

/-- Claim C10: for every vector `v` built by `make_good_unitary` with
`eps ∈ [0, 1/2]` and in-range samples, and every real exponent `e`, the
elementwise principal power of `v`'s spectrum is conjugate-symmetric, so
the inverse transform inside `power_ssp` is purely real (the `.real`
truncation discards nothing) and the disabled realness assertion on
`ifft(fv)` holds. -/
theorem C10_powered_spectrum_conjSymm (D : ℕ) (eps : ℝ) (a sign : ℕ → ℝ) (e : ℝ)
    (heps0 : 0 ≤ eps) (heps2 : eps ≤ 1 / 2)
    (ha : ∀ i < (D - 1) / 2, 0 ≤ a i ∧ a i < 1)
    (hs : ∀ i < (D - 1) / 2, sign i = 1 ∨ sign i = -1) :
    ConjSymm D (fun k =>
      dft D (fun j => ((make_good_unitary D eps a sign j : ℝ) : ℂ)) k ^ (e : ℂ)) ∧
    (∀ n < D, (idft D (fun k =>
      dft D (fun j => ((make_good_unitary D eps a sign j : ℝ) : ℂ)) k ^ (e : ℂ)) n).im = 0) ∧
    (∀ n < D, (custom_ifft D (mgu_fv D (mgu_phi eps a sign)) n).im = 0) := by
  have hcs_fv : ConjSymm D (fun k => mgu_fv D (mgu_phi eps a sign) k ^ (e : ℂ)) :=
    conjSymm_cpow D (mgu_fv D (mgu_phi eps a sign)) e (mgu_fv_conjSymm D _)
      (fun k _ => mgu_fv_abs D _ k)
      (fun k hk => mgu_arg_lt_pi D eps a sign heps0 heps2 ha hs hk)
  have h : ∀ k < D,
      dft D (fun j => ((make_good_unitary D eps a sign j : ℝ) : ℂ)) k ^ (e : ℂ) =
        mgu_fv D (mgu_phi eps a sign) k ^ (e : ℂ) := by
    intro k hk
    rw [mgu_dft D eps a sign hk]
  refine ⟨conjSymm_congr h hcs_fv, fun n hn => ?_, fun n hn => ?_⟩
  · rw [idft_congr h n]
    exact idft_im_of_conjSymm hcs_fv n
  · rw [custom_ifft_eq_idft D _ n hn]
    exact idft_im_of_conjSymm (mgu_fv_conjSymm D _) n

/-- Claim C10, witness: `D = 3`, `eps = 0`, sample `a 0 = 1/2`, `e = 2`. -/
theorem C10_powered_spectrum_conjSymm_witness :
    ((0 : ℝ) ≤ 0 ∧ (0 : ℝ) ≤ 1 / 2) ∧
      (ConjSymm 3 (fun k =>
        dft 3 (fun j => ((make_good_unitary 3 0 (fun _ => 1 / 2) (fun _ => 1) j : ℝ) : ℂ)) k
          ^ ((2 : ℝ) : ℂ)) ∧
      (∀ n < 3, (idft 3 (fun k =>
        dft 3 (fun j => ((make_good_unitary 3 0 (fun _ => 1 / 2) (fun _ => 1) j : ℝ) : ℂ)) k
          ^ ((2 : ℝ) : ℂ)) n).im = 0) ∧
      (∀ n < 3, (custom_ifft 3 (mgu_fv 3 (mgu_phi 0 (fun _ => 1 / 2) (fun _ => 1))) n).im = 0)) :=
  ⟨⟨le_refl 0, by norm_num⟩,
    C10_powered_spectrum_conjSymm 3 0 (fun _ => 1 / 2) (fun _ => 1) 2 (le_refl 0) (by norm_num)
      (fun i _ => ⟨by norm_num, by norm_num⟩) (fun i _ => Or.inl rfl)⟩

/-- Claim C1 (amended): the power composition law
`power_ssp (power_ssp v a) b = power_ssp v (a·b)` holds exactly for a
valid SSP `v` whenever every spectral phase `φ` of `v` satisfies
`|φ| < π` (no bin equals `-1`) and `|a·φ| < π` (the intermediate phase
stays inside the principal branch).  Without the wrap condition the law
fails (see the counterexample). -/
theorem C1_power_composition (D : ℕ) (v : ℕ → ℝ) (a b : ℝ)
    (hv : IsSSP D v)
    (hargpi : ∀ k < D, |Complex.arg (dft D (fun j => ((v j : ℂ))) k)| < π)
    (hwrap : ∀ k < D, |a * Complex.arg (dft D (fun j => ((v j : ℂ))) k)| < π)
    {n : ℕ} (hn : n < D) :
    power_ssp D (power_ssp D v a) b n = power_ssp D v (a * b) n := by
  have hcs : ConjSymm D (dft D (fun j => ((v j : ℂ)))) := dft_conjSymm_of_real D v
  have hcsa : ConjSymm D (fun k => dft D (fun j => ((v j : ℂ))) k ^ (a : ℂ)) :=
    conjSymm_cpow D _ a hcs hv hargpi
  rw [power_ssp_eq_idft D _ b hn, power_ssp_eq_idft D v (a * b) hn]
  congr 1
  refine idft_congr (fun k hk => ?_) n
  rw [dft_power_ssp D v a hcsa hk]
  exact cpow_cpow_unit _ (hv k hk) a b (hwrap k hk)

/-- Claim C1, witness: length-1 SSP `[1]`, `a = 2`, `b = 3`. -/
theorem C1_power_composition_witness :
    (IsSSP 1 (fun _ => (1 : ℝ)) ∧
      (∀ k < 1, |Complex.arg (dft 1 (fun j => (((1 : ℝ)) : ℂ)) k)| < π) ∧
      (∀ k < 1, |2 * Complex.arg (dft 1 (fun j => (((1 : ℝ)) : ℂ)) k)| < π)) ∧
      (∀ n < 1, power_ssp 1 (power_ssp 1 (fun _ => (1 : ℝ)) 2) 3 n =
        power_ssp 1 (fun _ => (1 : ℝ)) (2 * 3) n) := by
  have harg : ∀ k < 1, Complex.arg (dft 1 (fun j => (((1 : ℝ)) : ℂ)) k) = 0 := by
    intro k hk
    have hk0 : k = 0 := by omega
    subst hk0
    rw [dft1]
    norm_num
  have hssp : IsSSP 1 (fun _ => (1 : ℝ)) := by
    intro k hk
    have hk0 : k = 0 := by omega
    subst hk0
    rw [dft1]
    norm_num
  have h1 : ∀ k < 1, |Complex.arg (dft 1 (fun j => (((1 : ℝ)) : ℂ)) k)| < π := by
    intro k hk
    rw [harg k hk]
    simpa using Real.pi_pos
  have h2 : ∀ k < 1, |2 * Complex.arg (dft 1 (fun j => (((1 : ℝ)) : ℂ)) k)| < π := by
    intro k hk
    rw [harg k hk, mul_zero]
    simpa using Real.pi_pos
  exact ⟨⟨hssp, h1, h2⟩,
    fun n hn => C1_power_composition 1 (fun _ => (1 : ℝ)) 2 3 hssp h1 h2 hn⟩

/-- Claim C1, counterexample: for the valid SSP `vC1` (spectral phase
`3π/4`), `power_ssp (power_ssp v 2) (1/2)` differs from
`power_ssp v (2·(1/2)) = power_ssp v 1` at index 0: squaring pushes the
phase to `3π/2`, which wraps to `-π/2` on the principal branch, so the
subsequent square root returns phase `-π/4` instead of `3π/4`. -/
theorem C1_power_composition_counterexample :
    IsSSP 3 vC1 ∧
      power_ssp 3 (power_ssp 3 vC1 2) (1 / 2) 0 ≠ power_ssp 3 vC1 (2 * (1 / 2)) 0 := by
  have hpi := Real.pi_pos
  constructor
  · intro k hk
    unfold vC1
    exact mgu_habs 3 0 (fun _ => 3 / 4) (fun _ => 1) k hk
  · have hR : power_ssp 3 vC1 (2 * (1 / 2)) 0 = (1 + 2 * Real.cos (π * (3 / 4))) / 3 := by
      rw [show (2 * (1 / 2) : ℝ) = 1 from by norm_num]
      rw [power_ssp_eq_idft 3 vC1 1 (by norm_num)]
      have h1 : ∀ k < 3, dft 3 (fun j => ((vC1 j : ℂ))) k ^ ((1 : ℝ) : ℂ) =
          mgu_fv 3 (mgu_phi 0 (fun _ => (3 / 4 : ℝ)) (fun _ => (1 : ℝ))) k := by
        intro k hk
        rw [Complex.ofReal_one, Complex.cpow_one]
        exact dft_vC1 k hk
      rw [idft_congr h1 0, idft3_zero, fvC1_0, fvC1_1, fvC1_2]
      rw [show (3 : ℂ) = ((3 : ℝ) : ℂ) from by norm_num, Complex.div_ofReal_re]
      simp only [Complex.add_re, Complex.one_re, Complex.exp_ofReal_mul_I_re, Real.cos_neg]
      ring
    have hL : power_ssp 3 (power_ssp 3 vC1 2) (1 / 2) 0 =
        (1 + 2 * Real.cos (π * (1 / 4))) / 3 := by
      rw [power_ssp_eq_idft 3 (power_ssp 3 vC1 2) (1 / 2) (by norm_num)]
      have hcs2 : ConjSymm 3 (fun k => dft 3 (fun j => ((vC1 j : ℂ))) k ^ (((2 : ℝ)) : ℂ)) :=
        conjSymm_sq 3 vC1
      have hW : ∀ k < 3,
          dft 3 (fun j => ((power_ssp 3 vC1 2 j : ℝ) : ℂ)) k ^ (((1 / 2 : ℝ)) : ℂ) =
            (fun k => exp (((if k = 0 then (0 : ℝ)
              else if k = 1 then -(π * (1 / 4))
              else π * (1 / 4)) : ℝ) * I)) k := by
        intro k hk
        rw [dft_power_ssp 3 vC1 2 hcs2 hk, dft_vC1 k hk]
        interval_cases k
        · rw [fvC1_0]
          norm_num [Complex.one_cpow]
        · rw [fvC1_1]
          rw [cpow_exp_real (π * (3 / 4)) 2 (by nlinarith) (by nlinarith)]
          rw [show (2 * (π * (3 / 4)) : ℝ) = -(π / 2) + 2 * π from by ring,
            exp_real_mul_I_add_two_pi]
          rw [cpow_exp_real (-(π / 2)) (1 / 2) (by nlinarith) (by nlinarith)]
          norm_num
          congr 1
          ring
        · rw [fvC1_2]
          rw [cpow_exp_real (-(π * (3 / 4))) 2 (by nlinarith) (by nlinarith)]
          rw [show (2 * (-(π * (3 / 4))) : ℝ) = π / 2 - 2 * π from by ring,
            exp_real_mul_I_sub_two_pi]
          rw [cpow_exp_real (π / 2) (1 / 2) (by nlinarith) (by nlinarith)]
          norm_num
          congr 1
          ring
      rw [idft_congr hW 0, idft3_zero]
      have e0 : exp ((((if (0 : ℕ) = 0 then (0 : ℝ)
          else if (0 : ℕ) = 1 then -(π * (1 / 4)) else π * (1 / 4)) : ℝ) : ℂ) * I) =
          exp (((0 : ℝ) : ℂ) * I) := by norm_num
      have e1 : exp ((((if (1 : ℕ) = 0 then (0 : ℝ)
          else if (1 : ℕ) = 1 then -(π * (1 / 4)) else π * (1 / 4)) : ℝ) : ℂ) * I) =
          exp (((-(π * (1 / 4)) : ℝ) : ℂ) * I) := by norm_num
      have e2 : exp ((((if (2 : ℕ) = 0 then (0 : ℝ)
          else if (2 : ℕ) = 1 then -(π * (1 / 4)) else π * (1 / 4)) : ℝ) : ℂ) * I) =
          exp (((π * (1 / 4) : ℝ) : ℂ) * I) := by norm_num
      rw [e0, e1, e2]
      rw [show (3 : ℂ) = ((3 : ℝ) : ℂ) from by norm_num, Complex.div_ofReal_re]
      simp only [Complex.add_re, Complex.exp_ofReal_mul_I_re, Real.cos_neg,
        Real.cos_zero]
      ring
    rw [hL, hR]
    have hcos1 : Real.cos (π * (3 / 4)) = -(Real.sqrt 2 / 2) := by
      rw [show (π * (3 / 4) : ℝ) = π - π / 4 from by ring, Real.cos_pi_sub,
        Real.cos_pi_div_four]
    have hcos2 : Real.cos (π * (1 / 4)) = Real.sqrt 2 / 2 := by
      rw [show (π * (1 / 4) : ℝ) = π / 4 from by ring, Real.cos_pi_div_four]
    rw [hcos1, hcos2]
    have h2 : 0 < Real.sqrt 2 := Real.sqrt_pos.mpr (by norm_num)
    intro heq
    nlinarith [h2]

end SSPViz
